import Mathlib

/-!
Verification development for the s3n object-store navigator.

The definitions below are a shallow embedding of the program's core:
the navigation controller (`Model.Update` and its helpers in the main
package), the virtual-directory projector (`Model.loadItems`), the
view/edit session handlers (`ViewFinishedMsg` / `EditFinishedMsg` /
`EditFileTickMsg` cases) and the content filter
(`highlightOccurencesCaseInsensitive` in view.go).

Go strings are modelled as `List Char` for the navigation layer (where
only the delimiter character matters) and as `List Nat` (byte lists) for
the content filter, whose behaviour depends on byte indices.  Effectful
calls (object-store requests, temp-file I/O, subprocess execution) are
modelled by passing their outcomes as explicit parameters and returning
the issued commands as data.
-/

/-- Go string for the navigation layer, modelled as a list of characters. -/
abbrev Str := List Char

/-- `strings.TrimSuffix(s, suf)`: drop `suf` from the end of `s` when it is a suffix. -/
def trimSuffixGo (s suf : Str) : Str :=
  if suf <:+ s then s.take (s.length - suf.length) else s

/-- `strings.TrimPrefix(s, pre)`: drop `pre` from the front of `s` when it leads `s`. -/
def trimPrefixGo (s pre : Str) : Str :=
  if pre <+: s then s.drop pre.length else s

/-- `strings.Split(s, "/")` — the single-character separator used by the program. -/
def splitSlashGo : Str → List Str
  | [] => [[]]
  | c :: rest =>
    if c = '/' then [] :: splitSlashGo rest
    else
      match splitSlashGo rest with
      | h :: t => (c :: h) :: t
      | [] => [[c]]

/-- `strings.Join(parts, "/")`. -/
def joinSlashGo : List Str → Str
  | [] => []
  | [x] => x
  | x :: xs => x ++ '/' :: joinSlashGo xs

/-- One listing row (`item` in the source).  `modified` is an opaque timestamp. -/
structure Item where
  key : Str
  displayKey : Str
  contentType : Str
  size : Int
  modified : Nat
  isDir : Bool
  deriving DecidableEq, Repr

/-- The zero value of `item`, produced by Go's failed type assertion
`i, ok := m.list.SelectedItem().(item)` when `ok` is false. -/
def zeroItem : Item := ⟨[], [], [], 0, 0, false⟩

/-- The embedded fields of the controller state `Model` (part_001 lines 33-49).
The external collaborators (`list`, `help`, `keys`, `client`,
`lastWindowSize`) are not part of the core state. -/
structure Model where
  bucketName : Str
  currentPrefix : Str
  editFileStatus : Str
  loading : Bool
  nextPageToken : Option Str
  hasMoreItems : Bool
  currentItems : List Item
  statusMsg : Str
  showStatusMsg : Bool
  showContentType : Bool
  deriving DecidableEq, Repr

/-- `PAGE_SIZE` constant from the source. -/
def PAGE_SIZE : Nat := 100

/-- The `s3.ListObjectsV2Input` request built by `Model.loadItems`
(part_001 lines 195-201).  `reqPre` embeds the Go field `Prefix`. -/
structure ListInput where
  bucket : Str
  reqPre : Str
  maxKeys : Nat
  continuationToken : Option Str
  delimiter : Str
  deriving DecidableEq, Repr

/-- The `s3.PutObjectInput` built by the `EditFinishedMsg` handler
(part_001 lines 391-395).  The record has exactly the fields the code
sets — bucket, key and body; there is no precondition/version field, so
an upload is an unconditional overwrite. -/
structure PutInput where
  bucket : Str
  key : Str
  body : Str
  deriving DecidableEq, Repr

/-- The commands (`tea.Cmd` values) the update function can issue, as data. -/
inductive Cmd where
  | none
  | quit
  | fetch (input : ListInput)
  | emitErr (e : Str)
  | execView (file : Str)
  | execEdit (file key : Str)
  | tick (seconds : Nat)
  deriving DecidableEq, Repr

/-- The request a fetch issued from state `m` carries: `loadItems` reads
`m.currentPrefix` and `m.nextPageToken` at execution time. -/
def listInputOf (m : Model) : ListInput :=
  ⟨m.bucketName, m.currentPrefix, PAGE_SIZE, m.nextPageToken, ['/']⟩

/-- The Back computation on `currentPrefix` (part_001 lines 332-341): trim one
trailing delimiter, split on the delimiter, drop the last segment, re-join,
re-append the delimiter unless the result is empty. -/
def goBack (p : Str) : Str :=
  let parts := splitSlashGo (trimSuffixGo p ['/'])
  if parts.length > 0 then
    let parts2 := parts.dropLast
    let joined := joinSlashGo parts2
    if joined ≠ [] then joined ++ ['/'] else joined
  else []

/-- The key events with handlers in `Model.Update` (part_001 lines 290-383). -/
inductive Key where
  | enter
  | back
  | reload
  | edit
  | ctrlC
  | other
  deriving DecidableEq, Repr

/-- Outcomes of the effectful calls made inside the Enter(file)/Edit handlers:
`getOk` is the `GetObject` result, `writeOk` the `writeToTmpFile` result and
`tmpFile` the temp-file name it returns. -/
structure SessionEnv where
  getOk : Bool
  getErr : Str
  writeOk : Bool
  writeErr : Str
  tmpFile : Str
  deriving DecidableEq, Repr

/-- Enter on a directory entry (part_001 lines 295-301): set `loading`,
replace `currentPrefix` with the selected key, issue a fetch. -/
def enterDir (m : Model) (i : Item) : Model × Cmd :=
  let m1 := {m with loading := true, currentPrefix := i.key}
  (m1, Cmd.fetch (listInputOf m1))

/-- Enter on a file (part_001 lines 302-326): `GetObject`, write header+body to
the temp file, hand the terminal to `less`; each failure short-circuits into
an error message command. -/
def viewStart (m : Model) (env : SessionEnv) : Model × Cmd :=
  if env.getOk = false then (m, Cmd.emitErr env.getErr)
  else if env.writeOk = false then (m, Cmd.emitErr env.writeErr)
  else (m, Cmd.execView env.tmpFile)

/-- The Edit key on a file (part_001 lines 352-382): `GetObject`, write body to
the temp file, hand the terminal to `$EDITOR`. -/
def editStart (m : Model) (i : Item) (env : SessionEnv) : Model × Cmd :=
  if env.getOk = false then (m, Cmd.emitErr env.getErr)
  else if env.writeOk = false then (m, Cmd.emitErr env.writeErr)
  else (m, Cmd.execEdit env.tmpFile i.key)

/-- The Back handler (part_001 lines 328-346). -/
def backStep (m : Model) : Model × Cmd :=
  if m.currentPrefix = [] then (m, Cmd.none)
  else
    let m1 := {m with loading := true, currentPrefix := goBack m.currentPrefix}
    (m1, Cmd.fetch (listInputOf m1))

/-- The `tea.KeyMsg` case of `Model.Update` (part_001 lines 290-383).
`sel` is the result of `m.list.SelectedItem().(item)`; Go's failed type
assertion yields the zero item, whose `isDir` is false, so Enter with no
selection falls into the view branch exactly as in the source. -/
def keyUpdate (m : Model) (sel : Option Item) (env : SessionEnv) (k : Key) : Model × Cmd :=
  match k with
  | Key.ctrlC => (m, Cmd.quit)
  | Key.enter =>
    let i := sel.getD zeroItem
    if sel.isSome && i.isDir then enterDir m i
    else if i.isDir = false then viewStart m env
    else (m, Cmd.none)
  | Key.back => backStep m
  | Key.reload =>
    let m1 := {m with loading := true}
    (m1, Cmd.fetch (listInputOf m1))
  | Key.edit =>
    match sel with
    | some i => if i.isDir then (m, Cmd.none) else editStart m i env
    | none => (m, Cmd.none)
  | Key.other => (m, Cmd.none)

/-- The `error` case of `Model.Update` (part_001 lines 434-437): only the
status message and its visibility flag are written. -/
def errorHandler (m : Model) (e : Str) : Model :=
  {m with statusMsg := ("Error: ").data ++ e, showStatusMsg := true}

/-- ASCII apostrophe, spelled via its code point. -/
def apos : Char := Char.ofNat 39

/-- The `itemsLoadedMsg` case of `Model.Update` (part_001 lines 415-432). -/
def itemsLoadedHandler (m : Model) (items : List Item) (hasMore : Bool)
    (nextToken : Option Str) : Model :=
  {m with
    currentItems := items
    hasMoreItems := hasMore
    nextPageToken := nextToken
    loading := false
    statusMsg :=
      if items.length = 0 then ("Directory is empty").data
      else if hasMore then
        ("Showing ").data ++ (Nat.repr items.length).data ++
          (" items (More available - press ").data ++ [apos, 'n', apos] ++
          (" for next page)").data
      else
        ("Showing ").data ++ (Nat.repr items.length).data ++
          (" items (End of list)").data
    showStatusMsg := true}

/-- What the status line of `Model.View` (part_001 lines 472-486) shows:
`none` models the early return of the bare "Loading..." screen, in which
the status message is not rendered at all. -/
def statusLineShown (m : Model) : Option Str :=
  if m.loading then none
  else if m.showStatusMsg then
    if m.editFileStatus = [] then some m.statusMsg else some m.editFileStatus
  else some []

/-- The message carried by `ViewFinishedMsg` (filename and pager exit error). -/
structure ViewMsg where
  filename : Str
  err : Option Str
  deriving DecidableEq, Repr

/-- The message carried by `EditFinishedMsg` (key, filename, editor exit error). -/
structure EditMsg where
  key : Str
  filename : Str
  err : Option Str
  deriving DecidableEq, Repr

/-- Result of the `ViewFinishedMsg` case: the model is untouched, `os.Remove`
is always attempted and its error ignored; `fileGone` says whether the local
file is gone afterwards (the removal call succeeded). -/
structure ViewResult where
  model : Model
  removeAttempted : Bool
  fileGone : Bool
  deriving DecidableEq, Repr

/-- The `ViewFinishedMsg` case of `Model.Update` (part_001 lines 384-385):
unconditionally `os.Remove(msg.filename)`, nothing else. -/
def viewFinishedHandler (m : Model) (_msg : ViewMsg) (removeOk : Bool) : ViewResult :=
  ⟨m, true, removeOk⟩

/-- Result of the `EditFinishedMsg` case.  `uploaded` is the `PutObject`
request that succeeded (if any), `removeAttempted` whether `os.Remove` was
reached, `fileGone` whether the local file is gone afterwards, and `cmd` the
command returned to the runtime. -/
structure EditResult where
  model : Model
  uploaded : Option PutInput
  removeAttempted : Bool
  fileGone : Bool
  cmd : Cmd
  deriving DecidableEq, Repr

/-- The confirmation text `fmt.Sprintf(" → Uploaded %s to %s/%s!", ...)`. -/
def uploadedMsgText (filename bucket key : Str) : Str :=
  (" → Uploaded ").data ++ filename ++ (" to ").data ++ bucket ++
    ("/").data ++ key ++ ("!").data

/-- The `EditFinishedMsg` case of `Model.Update` (part_001 lines 386-407):
re-open the temp file, `PutObject` its contents to `msg.key`, set the
confirmation status, `os.Remove` the temp file, return a 2-second tick.
Every failure returns the error as a message command and skips the
remaining steps.  `contents` models the bytes the re-opened file holds;
`openOk`/`putOk`/`removeOk` are the outcomes of the three effectful calls.
Note the handler never reads `msg.err`, exactly like the source. -/
def editFinishedHandler (m : Model) (msg : EditMsg) (contents : Str)
    (openOk putOk removeOk : Bool) (openErr putErr removeErr : Str) : EditResult :=
  if openOk = false then ⟨m, none, false, false, Cmd.emitErr openErr⟩
  else if putOk = false then ⟨m, none, false, false, Cmd.emitErr putErr⟩
  else
    let put : PutInput := ⟨m.bucketName, msg.key, contents⟩
    let m1 := {m with editFileStatus := uploadedMsgText msg.filename m.bucketName msg.key}
    if removeOk = false then ⟨m1, some put, true, false, Cmd.emitErr removeErr⟩
    else ⟨m1, some put, true, true, Cmd.tick 2⟩

/-- The `EditFileTickMsg` case of `Model.Update` (part_001 lines 408-409):
clear the confirmation message. -/
def editFileTickHandler (m : Model) : Model :=
  {m with editFileStatus := []}

/-- A content entry of a `ListObjectsV2` response (`output.Contents`): the
fields `loadItems` reads.  A `none` key models a nil `obj.Key` pointer. -/
structure S3Obj where
  key : Option Str
  size : Int
  modified : Nat
  deriving DecidableEq, Repr

/-- A raw `ListObjectsV2` response: common prefixes (possibly nil pointers),
content entries, truncation flag and next continuation token. -/
structure ListOutput where
  commonPrefixes : List (Option Str)
  contents : List S3Obj
  isTruncated : Bool
  nextToken : Option Str
  deriving DecidableEq, Repr

/-- The directory branch of the projector (part_001 lines 211-223): one
directory entry per non-nil common prefix that is neither empty nor equal to
the current prefix. -/
def projectDir (cur : Str) (p : Option Str) : Option Item :=
  match p with
  | none => none
  | some q =>
    if q ≠ [] ∧ q ≠ cur then
      some ⟨q, trimSuffixGo (trimPrefixGo q cur) ['/'], [], 0, 0, true⟩
    else none

/-- The file branch of the projector (part_001 lines 226-255): skip nil, empty
and prefix-equal keys and keys whose relative path still contains the
delimiter; `ctOf` models the `HeadObject` content-type lookup, consulted only
when `showContentType` is set. -/
def projectFile (cur : Str) (showCT : Bool) (ctOf : Str → Option Str)
    (obj : S3Obj) : Option Item :=
  match obj.key with
  | none => none
  | some k =>
    if k = [] ∨ k = cur then none
    else
      let relativePath := trimPrefixGo k cur
      if '/' ∈ relativePath then none
      else
        let ct := if showCT then (ctOf k).getD [] else []
        some ⟨k, relativePath, ct, obj.size, obj.modified, false⟩

/-- The pure projection performed by `Model.loadItems` (part_001 lines
208-255): directory entries from the common prefixes, in order, followed by
file entries from the contents, in order. -/
def projectItems (cur : Str) (showCT : Bool) (ctOf : Str → Option Str)
    (out : ListOutput) : List Item :=
  out.commonPrefixes.filterMap (projectDir cur) ++
    out.contents.filterMap (projectFile cur showCT ctOf)

/-- Go byte string: the content filter works on byte indices, so it is
modelled on lists of bytes. -/
abbrev ByteStr := List Nat

/-- A piece of the filter's output: text copied verbatim, or text wrapped in
the highlight style (`lipgloss ... Render`). -/
inductive Chunk where
  | plain (bytes : ByteStr)
  | emph (bytes : ByteStr)
  deriving DecidableEq, Repr

/-- `strings.Index(h, n)`: byte index of the first occurrence of `n` in `h`,
`none` for Go's `-1`. -/
def indexGo (h n : ByteStr) : Option Nat :=
  if n <+: h then some 0
  else
    match h with
    | [] => none
    | _ :: t => (indexGo t n).map (· + 1)

/-- The scan loop of `highlightOccurencesCaseInsensitive` (view.go lines
86-95), with `lastIndex` the accumulator of the source.  The original text
`a` is sliced at byte positions computed against `lowerA`; a `none` result
models a Go panic: a slice bound beyond the length of the sliced string
(`lowerA[lastIndex:]`, `a[lastIndex:lastIndex+index]`,
`a[lastIndex+index:lastIndex+index+len(b)]` or the final `a[lastIndex:]`).
The fuel argument only bounds the recursion; `lowerA.length + 1` steps are
enough for every run that does not panic first, because `lastIndex` grows by
at least `len(b) ≥ 1` per iteration and a further iteration needs
`lastIndex ≤ lowerA.length`. -/
def highlightLoop (a lowerA b lowerB : ByteStr) : Nat → Nat → Option (List Chunk)
  | 0, _ => none
  | fuel + 1, lastIndex =>
    if lowerA.length < lastIndex then none
    else
      match indexGo (lowerA.drop lastIndex) lowerB with
      | none =>
        if lastIndex ≤ a.length then some [Chunk.plain (a.drop lastIndex)] else none
      | some index =>
        if lastIndex + index + b.length ≤ a.length then
          match highlightLoop a lowerA b lowerB fuel (lastIndex + index + b.length) with
          | some rest =>
            some (Chunk.plain ((a.drop lastIndex).take index) ::
              Chunk.emph (((a.drop lastIndex).drop index).take b.length) :: rest)
          | none => none
        else none

/-- `highlightOccurencesCaseInsensitive` (view.go lines 74-100).  The library
call `strings.ToLower` is passed in as `toLower`, since its Unicode tables
are external to the program; instantiating it with `List.map g` restricts
attention to inputs on which it lowercases byte by byte (as on ASCII). -/
def highlightOccurencesCaseInsensitive (toLower : ByteStr → ByteStr)
    (a b : ByteStr) : Option (List Chunk) :=
  if b = [] then some [Chunk.plain a]
  else
    let lowerA := toLower a
    let lowerB := toLower b
    highlightLoop a lowerA b lowerB (lowerA.length + 1) 0

/-- Modelled from Go's `strings.ToLower` on the byte strings used in the
counterexamples: ASCII bytes lowercase in place, and the two-byte UTF-8
sequence `0xC8 0xBA` (U+023A, latin capital letter A with stroke) lowercases
to the three-byte sequence `0xE2 0xB1 0xA5` (U+2C65, its Unicode simple
lowercase mapping) — a byte-length-changing case. -/
def toLowerStroke : ByteStr → ByteStr
  | [] => []
  | 0xC8 :: 0xBA :: rest => 0xE2 :: 0xB1 :: 0xA5 :: toLowerStroke rest
  | c :: rest => (if 65 ≤ c ∧ c ≤ 90 then c + 32 else c) :: toLowerStroke rest

/-- Spec-side scan, written from the spec's words: repeatedly find the
leftmost case-insensitive occurrence of `b` (compare under the per-byte
lowercasing `g`), emit the text before it verbatim and the occurrence
emphasized, and continue after it (left-to-right, without overlap). -/
def specScanLoop (g : Nat → Nat) (b : ByteStr) : Nat → ByteStr → Option (List Chunk)
  | 0, _ => none
  | fuel + 1, text =>
    match indexGo (text.map g) (b.map g) with
    | none => some [Chunk.plain text]
    | some i =>
      match specScanLoop g b fuel (text.drop (i + b.length)) with
      | some rest =>
        some (Chunk.plain (text.take i) ::
          Chunk.emph ((text.drop i).take b.length) :: rest)
      | none => none

/-- Spec-side filter, written from the spec's words: an empty filter string
leaves the text unchanged, otherwise emphasize exactly the left-to-right
non-overlapping case-insensitive occurrences of `b` in `a`. -/
def specHighlight (g : Nat → Nat) (a b : ByteStr) : Option (List Chunk) :=
  if b = [] then some [Chunk.plain a]
  else specScanLoop g b (a.length + 1) a

/-- The filter state of `ViewModel` (view.go lines 39-45): the underlying
text `body`, the filter input value and the toggle. -/
structure FilterModel where
  body : ByteStr
  filterValue : ByteStr
  filterEnabled : Bool
  deriving Repr

/-- `ViewModel.updateContent` (view.go lines 66-72): the displayed content is
the body, highlighted only while the filter is enabled. -/
def updateContent (toLower : ByteStr → ByteStr) (m : FilterModel) : Option (List Chunk) :=
  if m.filterEnabled then highlightOccurencesCaseInsensitive toLower m.body m.filterValue
  else some [Chunk.plain m.body]

/-- `ViewModel.clearFilter` (view.go lines 114-117): reset the filter input
to the empty string and recompute the content. -/
def clearFilter (toLower : ByteStr → ByteStr) (m : FilterModel) :
    FilterModel × Option (List Chunk) :=
  let m1 := {m with filterValue := []}
  (m1, updateContent toLower m1)

/-- Sample concrete state used by witnesses: loading is true, a continuation
token is stored, the prefix is one level deep. -/
def mSample : Model :=
  ⟨("bkt").data, ("a/").data, [], true, some (("tok").data), true, [], [], false, false⟩

/-- Sample directory entry one level below `mSample`'s prefix. -/
def dirSample : Item := ⟨("a/b/").data, ("b").data, [], 0, 0, true⟩

/-- Sample session environment in which every effect succeeds. -/
def envSample : SessionEnv := ⟨true, [], true, [], ("tmp").data⟩

/-- C2, counterexample: with `loading = true` the Reload key is not rejected —
the handler issues a fetch command, contradicting "no second fetch". -/
theorem c2_counterexample :
    mSample.loading = true ∧
    keyUpdate mSample none envSample Key.reload =
      ({mSample with loading := true},
        Cmd.fetch ⟨("bkt").data, ("a/").data, 100, some (("tok").data), ['/']⟩) ∧
    (keyUpdate mSample none envSample Key.reload).2 ≠ Cmd.none := by
  decide

/-- C2, amended: the key handlers contain no concurrency guard at all — even
with `loading = true`, Reload issues a fetch, Enter on a directory mutates the
prefix and issues a fetch, and Back above the root mutates the prefix and
issues a fetch.  The only no-op conditions are per-key ones. -/
theorem c2_no_concurrency_guard (m : Model) (sel : Option Item) (env : SessionEnv)
    (i : Item) (_hload : m.loading = true) (hsel : sel = some i) (hdir : i.isDir = true) :
    keyUpdate m sel env Key.reload =
      ({m with loading := true}, Cmd.fetch (listInputOf {m with loading := true})) ∧
    keyUpdate m sel env Key.enter =
      ({m with loading := true, currentPrefix := i.key},
        Cmd.fetch (listInputOf {m with loading := true, currentPrefix := i.key})) ∧
    (m.currentPrefix ≠ [] →
      keyUpdate m sel env Key.back =
        ({m with loading := true, currentPrefix := goBack m.currentPrefix},
          Cmd.fetch (listInputOf {m with loading := true, currentPrefix := goBack m.currentPrefix}))) := by
  subst hsel
  refine ⟨rfl, ?_, ?_⟩
  · simp [keyUpdate, enterDir, hdir]
  · intro hne
    simp [keyUpdate, backStep, hne]

/-- C2, witness for the amended theorem at a concrete loading state. -/
theorem c2_no_concurrency_guard_witness :
    mSample.loading = true ∧ dirSample.isDir = true ∧ mSample.currentPrefix ≠ [] ∧
    keyUpdate mSample (some dirSample) envSample Key.reload =
      ({mSample with loading := true}, Cmd.fetch (listInputOf {mSample with loading := true})) := by
  refine ⟨by decide, by decide, by decide, ?_⟩
  exact (c2_no_concurrency_guard mSample (some dirSample) envSample dirSample
    (by decide) rfl (by decide)).1

/-- C3: the `error` case of `Model.Update` sets the status message and its
flag but leaves `loading` (and all navigation state) untouched; with a fetch
outstanding the model keeps `loading = true`, so `View` keeps rendering the
bare "Loading..." screen and the error text is never shown. -/
theorem c3_error_leaves_loading_true :
    errorHandler mSample (("boom").data) =
      {mSample with statusMsg := ("Error: boom").data, showStatusMsg := true} ∧
    (errorHandler mSample (("boom").data)).loading = true ∧
    (errorHandler mSample (("boom").data)).currentPrefix = mSample.currentPrefix ∧
    (errorHandler mSample (("boom").data)).currentItems = mSample.currentItems ∧
    (errorHandler mSample (("boom").data)).nextPageToken = mSample.nextPageToken ∧
    statusLineShown (errorHandler mSample (("boom").data)) = none := by
  decide

/-- C4, counterexample: Enter onto directory "a/b/" changes `currentPrefix`
but the stored continuation token is not reset — the issued fetch carries the
stale token `"tok"` rather than no token. -/
theorem c4_counterexample :
    (keyUpdate mSample (some dirSample) envSample Key.enter).1.currentPrefix = ("a/b/").data ∧
    (keyUpdate mSample (some dirSample) envSample Key.enter).1.nextPageToken =
      some (("tok").data) ∧
    (keyUpdate mSample (some dirSample) envSample Key.enter).2 =
      Cmd.fetch ⟨("bkt").data, ("a/b/").data, 100, some (("tok").data), ['/']⟩ := by
  decide

/-- C4, amended: Enter and Back transitions change `currentPrefix` but never
reset the page cursor; the fetch they issue carries the previously stored
continuation token unchanged.  The token is replaced only when a fetch
completes (the `itemsLoadedMsg` case). -/
theorem c4_cursor_not_reset (m : Model) (sel : Option Item) (env : SessionEnv)
    (i : Item) (it : List Item) (hm : Bool) (tok : Option Str)
    (hsel : sel = some i) (hdir : i.isDir = true) :
    ((keyUpdate m sel env Key.enter).1.nextPageToken = m.nextPageToken ∧
      (keyUpdate m sel env Key.enter).2 =
        Cmd.fetch ⟨m.bucketName, i.key, PAGE_SIZE, m.nextPageToken, ['/']⟩) ∧
    (m.currentPrefix ≠ [] →
      (keyUpdate m sel env Key.back).1.nextPageToken = m.nextPageToken ∧
      (keyUpdate m sel env Key.back).2 =
        Cmd.fetch ⟨m.bucketName, goBack m.currentPrefix, PAGE_SIZE, m.nextPageToken, ['/']⟩) ∧
    (itemsLoadedHandler m it hm tok).nextPageToken = tok := by
  subst hsel
  refine ⟨?_, ?_, rfl⟩
  · constructor
    · simp [keyUpdate, enterDir, hdir]
    · simp [keyUpdate, enterDir, hdir, listInputOf]
  · intro hne
    constructor
    · simp [keyUpdate, backStep, hne]
    · simp [keyUpdate, backStep, hne, listInputOf]

/-- C4, witness for the amended theorem at a concrete state. -/
theorem c4_cursor_not_reset_witness :
    dirSample.isDir = true ∧ mSample.currentPrefix ≠ [] ∧
    (keyUpdate mSample (some dirSample) envSample Key.enter).1.nextPageToken =
      mSample.nextPageToken := by
  refine ⟨by decide, by decide, ?_⟩
  exact (c4_cursor_not_reset mSample (some dirSample) envSample dirSample [] false none
    rfl (by decide)).1.1

/-- C1, counterexample: an Edit session whose upload fails.  The handler
returns the error before reaching `os.Remove`, so the local file still
exists after the session ends, contradicting "the local file is still
removed if it was created". -/
theorem c1_counterexample :
    (editFinishedHandler mSample ⟨("k").data, ("f").data, none⟩ ("body").data
        true false true [] ("puterr").data []) =
      ⟨mSample, none, false, false, Cmd.emitErr (("puterr").data)⟩ := by
  decide

/-- C1, amended: for View sessions removal is always attempted (the file is
gone exactly when the removal call succeeds); for Edit sessions the file is
gone only when re-open, upload and removal all succeed — a failure at re-open
or upload short-circuits into an error command before removal is attempted,
leaving the file in place. -/
theorem c1_file_cleanup (m : Model) (vmsg : ViewMsg) (emsg : EditMsg) (contents : Str)
    (oOk pOk rOk : Bool) (oE pE rE : Str) :
    (viewFinishedHandler m vmsg rOk).removeAttempted = true ∧
    (viewFinishedHandler m vmsg rOk).fileGone = rOk ∧
    (editFinishedHandler m emsg contents oOk pOk rOk oE pE rE).fileGone =
      (oOk && pOk && rOk) ∧
    editFinishedHandler m emsg contents false pOk rOk oE pE rE =
      ⟨m, none, false, false, Cmd.emitErr oE⟩ ∧
    editFinishedHandler m emsg contents true false rOk oE pE rE =
      ⟨m, none, false, false, Cmd.emitErr pE⟩ := by
  refine ⟨rfl, rfl, ?_, by simp [editFinishedHandler], by simp [editFinishedHandler]⟩
  cases oOk <;> cases pOk <;> cases rOk <;> simp [editFinishedHandler]

/-- C8: the success path of the `EditFinishedMsg` handler uploads the local
file's current contents to the same key (the request has no precondition
field, i.e. a plain overwrite), sets a non-empty confirmation message,
removes the local file, and returns a 2-second tick whose handler clears
the confirmation message. -/
theorem c8_edit_success_path (m : Model) (k fn contents : Str) (err : Option Str)
    (oE pE rE : Str) :
    (editFinishedHandler m ⟨k, fn, err⟩ contents true true true oE pE rE).uploaded =
      some ⟨m.bucketName, k, contents⟩ ∧
    (editFinishedHandler m ⟨k, fn, err⟩ contents true true true oE pE rE).model =
      {m with editFileStatus := uploadedMsgText fn m.bucketName k} ∧
    (editFinishedHandler m ⟨k, fn, err⟩ contents true true true oE pE rE).model.editFileStatus ≠ [] ∧
    (editFinishedHandler m ⟨k, fn, err⟩ contents true true true oE pE rE).fileGone = true ∧
    (editFinishedHandler m ⟨k, fn, err⟩ contents true true true oE pE rE).cmd = Cmd.tick 2 ∧
    editFileTickHandler
        (editFinishedHandler m ⟨k, fn, err⟩ contents true true true oE pE rE).model =
      {m with editFileStatus := []} := by
  refine ⟨rfl, rfl, ?_, rfl, rfl, rfl⟩
  simp [editFinishedHandler, uploadedMsgText]

/-- C9: the `EditFinishedMsg` handler never reads the editor's exit error —
its result is identical for any two error values (including a launch failure
from an empty `$EDITOR`) — and when re-open succeeds it still uploads the
local file's (possibly unedited) contents to the object key. -/
theorem c9_editor_error_ignored (m : Model) (k fn contents : Str) (e1 e2 : Option Str)
    (oOk pOk rOk : Bool) (oE pE rE : Str) :
    editFinishedHandler m ⟨k, fn, e1⟩ contents oOk pOk rOk oE pE rE =
      editFinishedHandler m ⟨k, fn, e2⟩ contents oOk pOk rOk oE pE rE ∧
    (editFinishedHandler m ⟨k, fn, e1⟩ contents true true rOk oE pE rE).uploaded =
      some ⟨m.bucketName, k, contents⟩ := by
  refine ⟨rfl, ?_⟩
  cases rOk <;> simp [editFinishedHandler]

/-- `strings.Split` never returns an empty slice. -/
theorem splitSlashGo_ne_nil (s : Str) : splitSlashGo s ≠ [] := by
  induction s with
  | nil => simp [splitSlashGo]
  | cons c rest ih =>
    simp only [splitSlashGo]
    split
    · simp
    · cases h : splitSlashGo rest with
      | nil => exact absurd h ih
      | cons hh tt => simp

/-- Splitting distributes over a separator occurrence. -/
theorem splitSlashGo_append (x y : Str) :
    splitSlashGo (x ++ '/' :: y) = splitSlashGo x ++ splitSlashGo y := by
  induction x with
  | nil => simp [splitSlashGo]
  | cons c rest ih =>
    by_cases hc : c = '/'
    · subst hc
      simp [splitSlashGo, ih]
    · have l1 : splitSlashGo (c :: (rest ++ '/' :: y)) =
          match splitSlashGo (rest ++ '/' :: y) with
          | h :: t => (c :: h) :: t
          | [] => [[c]] := by simp [splitSlashGo, hc]
      have l2 : splitSlashGo (c :: rest) =
          match splitSlashGo rest with
          | h :: t => (c :: h) :: t
          | [] => [[c]] := by simp [splitSlashGo, hc]
      rw [List.cons_append, l1, l2, ih]
      cases h : splitSlashGo rest with
      | nil => exact absurd h (splitSlashGo_ne_nil rest)
      | cons hh tt => simp

/-- A separator-free string splits into itself. -/
theorem splitSlashGo_no_slash (s : Str) (h : '/' ∉ s) : splitSlashGo s = [s] := by
  induction s with
  | nil => rfl
  | cons c rest ih =>
    have hc : c ≠ '/' := by
      intro e
      subst e
      exact h (List.mem_cons_self _ _)
    have h2 : '/' ∉ rest := fun hr => h (List.mem_cons_of_mem c hr)
    simp [splitSlashGo, hc, ih h2]

/-- Join is a left inverse of split. -/
theorem joinSlashGo_splitSlashGo (s : Str) : joinSlashGo (splitSlashGo s) = s := by
  induction s with
  | nil => rfl
  | cons c rest ih =>
    by_cases hc : c = '/'
    · subst hc
      simp only [splitSlashGo, if_pos rfl]
      cases h : splitSlashGo rest with
      | nil => exact absurd h (splitSlashGo_ne_nil rest)
      | cons hh tt =>
        rw [h] at ih
        simp [joinSlashGo, ih]
    · simp only [splitSlashGo, hc, if_neg]
      cases h : splitSlashGo rest with
      | nil => exact absurd h (splitSlashGo_ne_nil rest)
      | cons hh tt =>
        rw [h] at ih
        cases tt with
        | nil =>
          simp only [joinSlashGo] at ih ⊢
          rw [ih]
        | cons t1 t2 =>
          simp only [joinSlashGo] at ih ⊢
          rw [List.cons_append, ih]

/-- `strings.TrimSuffix` removes exactly one trailing delimiter. -/
theorem trimSuffixGo_append_slash (z : Str) : trimSuffixGo (z ++ ['/']) ['/'] = z := by
  have hs : ['/'] <:+ z ++ ['/'] := List.suffix_append z ['/']
  rw [trimSuffixGo, if_pos hs]
  have hl : (z ++ ['/']).length - (['/'] : Str).length = z.length := by simp
  rw [hl]
  exact List.take_left z ['/']

/-- `strings.TrimPrefix` removes a leading prefix. -/
theorem trimPrefixGo_append (cur rest : Str) : trimPrefixGo (cur ++ rest) cur = rest := by
  have hp : cur <+: cur ++ rest := List.prefix_append cur rest
  rw [trimPrefixGo, if_pos hp]
  exact List.drop_left cur rest

/-- The Back computation undoes appending one delimiter-free segment, for any
current prefix that is empty or ends with the delimiter preceded by at least
one character. -/
theorem goBack_append_seg (p seg : Str) (hseg : '/' ∉ seg)
    (hp : p = [] ∨ ∃ q, q ≠ [] ∧ p = q ++ ['/']) :
    goBack (p ++ seg ++ ['/']) = p := by
  rcases hp with h | ⟨q, hq, h⟩
  · subst h
    simp only [List.nil_append, goBack]
    rw [trimSuffixGo_append_slash, splitSlashGo_no_slash seg hseg]
    simp [joinSlashGo]
  · subst h
    have e1 : (q ++ ['/']) ++ seg ++ ['/'] = (q ++ '/' :: seg) ++ ['/'] := by simp
    simp only [goBack]
    rw [e1, trimSuffixGo_append_slash, splitSlashGo_append,
      splitSlashGo_no_slash seg hseg]
    have e2 : (splitSlashGo q ++ [seg]).dropLast = splitSlashGo q := by
      rw [List.dropLast_concat]
    simp only [List.length_append, List.length_singleton]
    rw [if_pos (by omega), e2, joinSlashGo_splitSlashGo]
    rw [if_pos hq]

/-- A concrete state whose prefix is the bare delimiter "/", reachable by
Enter on the directory entry the projector emits for common prefix "/"
(a bucket holding keys that start with the delimiter). -/
def mRootSlash : Model :=
  ⟨("bkt").data, ['/'], [], false, none, false, [], [], false, false⟩

/-- C6, counterexample: with current prefix "/" (reachable when keys start
with the delimiter) and selectable directory entry "//" beneath it, Back
after Enter("//") yields the root "" instead of the prior prefix "/". -/
theorem c6_counterexample :
    projectItems [] false (fun _ => none) ⟨[some ['/']], [], false, none⟩ =
      [⟨['/'], [], [], 0, 0, true⟩] ∧
    projectItems ['/'] false (fun _ => none) ⟨[some ['/', '/']], [], false, none⟩ =
      [⟨['/', '/'], [], [], 0, 0, true⟩] ∧
    (keyUpdate mRootSlash (some ⟨['/', '/'], [], [], 0, 0, true⟩) envSample
        Key.enter).1.currentPrefix = ['/', '/'] ∧
    (keyUpdate
        (keyUpdate mRootSlash (some ⟨['/', '/'], [], [], 0, 0, true⟩) envSample
          Key.enter).1
        none envSample Key.back).1.currentPrefix = [] ∧
    ([] : Str) ≠ mRootSlash.currentPrefix := by
  decide

/-- C6, amended: Back after Enter(X) returns exactly to the prefix held
before Enter(X), for every directory entry X extending the current prefix by
one delimiter-free segment, provided the current prefix is the root or ends
with the delimiter preceded by at least one character (the bare prefix "/"
is the one exception, as the counterexample shows).  Back is the
split / drop-last / re-join / re-append-delimiter computation `goBack`. -/
theorem c6_back_after_enter (m : Model) (env env2 : SessionEnv) (sel2 : Option Item)
    (X : Item) (seg : Str)
    (hdir : X.isDir = true) (hkey : X.key = m.currentPrefix ++ seg ++ ['/'])
    (hseg : '/' ∉ seg)
    (hwf : m.currentPrefix = [] ∨ ∃ q, q ≠ [] ∧ m.currentPrefix = q ++ ['/']) :
    (keyUpdate m (some X) env Key.enter).1.currentPrefix = X.key ∧
    (keyUpdate (keyUpdate m (some X) env Key.enter).1 sel2 env2
        Key.back).1.currentPrefix = m.currentPrefix := by
  have h1 : (keyUpdate m (some X) env Key.enter).1 =
      {m with loading := true, currentPrefix := X.key} := by
    simp [keyUpdate, enterDir, hdir]
  have hne : X.key ≠ [] := by
    rw [hkey]
    simp
  refine ⟨by rw [h1], ?_⟩
  rw [h1]
  have h2 : ({m with loading := true, currentPrefix := X.key} : Model).currentPrefix =
      X.key := rfl
  simp only [keyUpdate, backStep, h2, if_neg hne]
  rw [hkey]
  exact goBack_append_seg m.currentPrefix seg hseg hwf

/-- C6, witness: entering directory "a/b/" from prefix "a/" and going Back
returns to "a/". -/
theorem c6_back_after_enter_witness :
    dirSample.isDir = true ∧
    dirSample.key = mSample.currentPrefix ++ ('b' :: []) ++ ['/'] ∧
    '/' ∉ ('b' :: []) ∧
    (mSample.currentPrefix = [] ∨
      ∃ q, q ≠ [] ∧ mSample.currentPrefix = q ++ ['/']) ∧
    (keyUpdate (keyUpdate mSample (some dirSample) envSample Key.enter).1 none
        envSample Key.back).1.currentPrefix = mSample.currentPrefix := by
  refine ⟨by decide, by decide, by decide, Or.inr ⟨['a'], by decide, by decide⟩, ?_⟩
  exact (c6_back_after_enter mSample envSample envSample none dirSample ('b' :: [])
    (by decide) (by decide) (by decide)
    (Or.inr ⟨['a'], by decide, by decide⟩)).2

/-- Spec-side keep condition for a common prefix, from the claim's words: one
directory entry per common prefix that is neither empty nor equal to the
current prefix (a nil pointer is no common prefix at all). -/
def dirKeep (cur : Str) : Option Str → Bool
  | none => false
  | some q => decide (q ≠ [] ∧ q ≠ cur)

/-- Spec-side directory entry for a kept common prefix: the key is the full
prefix, the display key the relative path with a trailing delimiter
stripped. -/
def specDirItem (cur : Str) (p : Option Str) : Item :=
  ⟨p.getD [], trimSuffixGo (trimPrefixGo (p.getD []) cur) ['/'], [], 0, 0, true⟩

/-- Spec-side keep condition for a content entry: a present, non-empty key
different from the current prefix whose relative path contains no
delimiter. -/
def fileKeep (cur : Str) (o : S3Obj) : Bool :=
  match o.key with
  | none => false
  | some k => decide (¬(k = [] ∨ k = cur)) && decide ('/' ∉ trimPrefixGo k cur)

/-- Spec-side file entry for a kept content entry. -/
def specFileItem (cur : Str) (showCT : Bool) (ctOf : Str → Option Str) (o : S3Obj) : Item :=
  ⟨o.key.getD [], trimPrefixGo (o.key.getD []) cur,
    (if showCT then (ctOf (o.key.getD [])).getD [] else []), o.size, o.modified, false⟩

/-- A `filterMap` by a keep-condition-and-constructor pair is filter
followed by map. -/
theorem filterMap_eq_map_filter {α β : Type} (f : α → Option β) (keep : α → Bool)
    (g : α → β) (hf : ∀ x, f x = if keep x then some (g x) else none) (l : List α) :
    l.filterMap f = (l.filter keep).map g := by
  induction l with
  | nil => rfl
  | cons x xs ih =>
    rw [List.filterMap_cons, List.filter_cons, hf x]
    cases hx : keep x with
    | true => simp [ih]
    | false => simp [ih]

/-- The source's directory branch agrees with the spec-side pair. -/
theorem projectDir_eq (cur : Str) (p : Option Str) :
    projectDir cur p = if dirKeep cur p then some (specDirItem cur p) else none := by
  cases p with
  | none => rfl
  | some q =>
    by_cases h : q ≠ [] ∧ q ≠ cur
    · simp [projectDir, dirKeep, specDirItem, h]
    · simp [projectDir, dirKeep, specDirItem, h]

/-- The source's file branch agrees with the spec-side pair. -/
theorem projectFile_eq (cur : Str) (showCT : Bool) (ctOf : Str → Option Str) (o : S3Obj) :
    projectFile cur showCT ctOf o =
      if fileKeep cur o then some (specFileItem cur showCT ctOf o) else none := by
  rcases o with ⟨k, sz, md⟩
  cases k with
  | none => rfl
  | some key =>
    by_cases h1 : key = [] ∨ key = cur
    · simp [projectFile, fileKeep, h1]
    · by_cases h2 : '/' ∈ trimPrefixGo key cur
      · simp [projectFile, fileKeep, h1, h2]
      · simp [projectFile, fileKeep, specFileItem, h1, h2]

/-- C5, counterexample: a raw response whose common prefix extends the
current prefix by more than one level.  The projector emits it as a
directory entry whose relative path still contains the delimiter after
stripping the trailing one, contradicting the claim's unconditional
invariant for directory entries. -/
theorem c5_counterexample :
    projectItems [] false (fun _ => none)
        ⟨[some ('a' :: '/' :: 'b' :: '/' :: [])], [], false, none⟩ =
      [⟨('a' :: '/' :: 'b' :: '/' :: []), ('a' :: '/' :: 'b' :: []), [], 0, 0, true⟩] ∧
    '/' ∈ trimSuffixGo ('a' :: '/' :: 'b' :: []) ['/'] := by
  decide

/-- C5, amended: the projector emits exactly one directory entry per
non-nil common prefix that is neither empty nor equal to the current prefix,
in response order, followed by exactly one file entry per content entry with
a present, non-empty key different from the current prefix whose relative
path contains no delimiter, in response order, with no re-sorting; every
file entry's relative path contains no delimiter; and when every common
prefix extends the current prefix by exactly one delimiter-free segment (as
store responses do), every directory entry's relative path, after stripping
the trailing delimiter, contains no delimiter. -/
theorem c5_projection (cur : Str) (showCT : Bool) (ctOf : Str → Option Str)
    (out : ListOutput) :
    projectItems cur showCT ctOf out =
      (out.commonPrefixes.filter (dirKeep cur)).map (specDirItem cur) ++
        (out.contents.filter (fileKeep cur)).map (specFileItem cur showCT ctOf) ∧
    (∀ i ∈ projectItems cur showCT ctOf out, i.isDir = false → '/' ∉ i.displayKey) ∧
    ((∀ q : Str, some q ∈ out.commonPrefixes →
        ∃ seg, '/' ∉ seg ∧ q = cur ++ seg ++ ['/']) →
      ∀ i ∈ projectItems cur showCT ctOf out, i.isDir = true → '/' ∉ i.displayKey) := by
  have h0 : projectItems cur showCT ctOf out =
      (out.commonPrefixes.filter (dirKeep cur)).map (specDirItem cur) ++
        (out.contents.filter (fileKeep cur)).map (specFileItem cur showCT ctOf) := by
    rw [projectItems,
      filterMap_eq_map_filter (projectDir cur) (dirKeep cur) (specDirItem cur)
        (projectDir_eq cur),
      filterMap_eq_map_filter (projectFile cur showCT ctOf) (fileKeep cur)
        (specFileItem cur showCT ctOf) (projectFile_eq cur showCT ctOf)]
  refine ⟨h0, ?_, ?_⟩
  · intro i hi hfile
    rw [h0] at hi
    rcases List.mem_append.mp hi with hd | hf
    · rcases List.mem_map.mp hd with ⟨p, hp, rfl⟩
      simp [specDirItem] at hfile
    · rcases List.mem_map.mp hf with ⟨o, ho, rfl⟩
      have hk := (List.mem_filter.mp ho).2
      cases hkey : o.key with
      | none =>
        simp only [fileKeep, hkey] at hk
        exact Bool.noConfusion hk
      | some k =>
        simp only [fileKeep, hkey, Bool.and_eq_true, decide_eq_true_eq] at hk
        have hns : '/' ∉ trimPrefixGo k cur := hk.2
        show '/' ∉ trimPrefixGo (o.key.getD []) cur
        rw [hkey]
        exact hns
  · intro H i hi hdir
    rw [h0] at hi
    rcases List.mem_append.mp hi with hd | hf
    · rcases List.mem_map.mp hd with ⟨p, hp, rfl⟩
      have hpm := (List.mem_filter.mp hp).1
      cases p with
      | none => simp [dirKeep] at hp
      | some q =>
        rcases H q hpm with ⟨seg, hseg, rfl⟩
        show '/' ∉ trimSuffixGo
          (trimPrefixGo ((some (cur ++ seg ++ ['/'])).getD []) cur) ['/']
        have e1 : trimPrefixGo (cur ++ seg ++ ['/']) cur = seg ++ ['/'] := by
          rw [List.append_assoc]
          exact trimPrefixGo_append cur (seg ++ ['/'])
        rw [Option.getD_some, e1, trimSuffixGo_append_slash]
        exact hseg
    · rcases List.mem_map.mp hf with ⟨o, ho, rfl⟩
      simp [specFileItem] at hdir

/-- C5, witness for the amended theorem on a well-formed response under
prefix "a/": one common prefix "a/b/" and one content entry "a/x". -/
theorem c5_projection_witness :
    (∀ q : Str, some q ∈ ([some ('a' :: '/' :: 'b' :: '/' :: [])] : List (Option Str)) →
      ∃ seg, '/' ∉ seg ∧ q = ('a' :: '/' :: []) ++ seg ++ ['/']) ∧
    (∀ i ∈ projectItems ('a' :: '/' :: []) false (fun _ => none)
        ⟨[some ('a' :: '/' :: 'b' :: '/' :: [])],
          [⟨some ('a' :: '/' :: 'x' :: []), 3, 5⟩], false, none⟩,
      i.isDir = true → '/' ∉ i.displayKey) := by
  have H : ∀ q : Str, some q ∈ ([some ('a' :: '/' :: 'b' :: '/' :: [])] : List (Option Str)) →
      ∃ seg, '/' ∉ seg ∧ q = ('a' :: '/' :: []) ++ seg ++ ['/'] := by
    intro q hq
    simp only [List.mem_singleton, Option.some.injEq] at hq
    subst hq
    exact ⟨['b'], by decide, by decide⟩
  refine ⟨H, ?_⟩
  exact (c5_projection ('a' :: '/' :: []) false (fun _ => none)
    ⟨[some ('a' :: '/' :: 'b' :: '/' :: [])],
      [⟨some ('a' :: '/' :: 'x' :: []), 3, 5⟩], false, none⟩).2.2 H

/-- A found index leaves room for the needle. -/
theorem indexGo_le (h n : ByteStr) (i : Nat) (he : indexGo h n = some i) :
    i + n.length ≤ h.length := by
  induction h generalizing i with
  | nil =>
    rw [indexGo] at he
    split at he
    · rename_i hp
      have hn : n = [] := List.prefix_nil.mp hp
      have : i = 0 := by
        have := Option.some.inj he
        omega
      subst hn this
      simp
    · exact absurd he (by simp)
  | cons c t ih =>
    rw [indexGo] at he
    split at he
    · rename_i hp
      have h0 : i = 0 := by
        have := Option.some.inj he
        omega
      subst h0
      simpa using hp.length_le
    · simp only [Option.map_eq_some'] at he
      rcases he with ⟨j, hj, rfl⟩
      have := ih j hj
      simp only [List.length_cons]
      omega

/-- When the lowercasing is byte-wise (`List.map g`), the source's scan loop
computes exactly the spec-side scan on the remaining text: the byte indices
computed against the lowercased string line up with the original, every
slice is in bounds, and the emitted chunks agree. -/
theorem highlightLoop_refines (g : Nat → Nat) (a b : ByteStr) :
    ∀ fuel k, k ≤ a.length →
      highlightLoop a (a.map g) b (b.map g) fuel k = specScanLoop g b fuel (a.drop k) := by
  intro fuel
  induction fuel with
  | zero => intro k _; rfl
  | succ f ih =>
    intro k hk
    rw [highlightLoop, specScanLoop]
    rw [if_neg (by simp only [List.length_map]; omega)]
    have hm : (a.map g).drop k = (a.drop k).map g := (List.map_drop ..).symm
    rw [hm]
    cases hidx : indexGo ((a.drop k).map g) (b.map g) with
    | none =>
      rw [if_pos hk]
    | some i =>
      have hb : i + (b.map g).length ≤ ((a.drop k).map g).length := indexGo_le _ _ i hidx
      simp only [List.length_map, List.length_drop] at hb
      have hcond : k + i + b.length ≤ a.length := by omega
      dsimp only
      rw [if_pos hcond]
      have hrec := ih (k + i + b.length) (by omega)
      have e1 : (a.drop k).drop (i + b.length) = a.drop (k + i + b.length) := by
        rw [List.drop_drop]
        congr 1
        omega
      rw [e1, hrec]

/-- With a non-empty filter string, `a.length + 1` fuel always suffices for
the spec-side scan: each round consumes at least one byte of the text. -/
theorem specScanLoop_isSome (g : Nat → Nat) (b : ByteStr) (hb : b ≠ []) :
    ∀ fuel text, text.length < fuel → (specScanLoop g b fuel text).isSome = true := by
  intro fuel
  induction fuel with
  | zero => intro t ht; omega
  | succ f ih =>
    intro t ht
    rw [specScanLoop]
    cases hidx : indexGo (t.map g) (b.map g) with
    | none => simp
    | some i =>
      have hb2 : i + (b.map g).length ≤ (t.map g).length := indexGo_le _ _ i hidx
      simp only [List.length_map] at hb2
      have hb1 : 1 ≤ b.length := by
        cases b with
        | nil => exact absurd rfl hb
        | cons x xs => simp
      have hlen : (t.drop (i + b.length)).length < f := by
        rw [List.length_drop]
        omega
      have hrec := ih (t.drop (i + b.length)) hlen
      dsimp only
      cases hx : specScanLoop g b f (t.drop (i + b.length)) with
      | none =>
        rw [hx] at hrec
        exact absurd hrec (by simp)
      | some rest =>
        simp

/-- C7, counterexample: highlighting the text "Ⱥab" (bytes `C8 BA 61 62`)
with filter "a" (byte `61`).  Go's `ToLower` turns the two-byte "Ⱥ" into the
three-byte "ⱥ", so the match index 3 found in the lowercased text is applied
to the original bytes, and the function emphasizes the byte `62` ("b") —
which is not a case-insensitive occurrence of the filter string — while the
actual occurrence `61` ("a") is left unemphasized. -/
theorem c7_counterexample :
    highlightOccurencesCaseInsensitive toLowerStroke
        (0xC8 :: 0xBA :: 0x61 :: 0x62 :: []) (0x61 :: []) =
      some [Chunk.plain (0xC8 :: 0xBA :: 0x61 :: []), Chunk.emph (0x62 :: []),
        Chunk.plain []] ∧
    toLowerStroke (0x62 :: []) ≠ toLowerStroke (0x61 :: []) := by
  decide

/-- C7, amended: when the lowercasing acts byte-for-byte (as `strings.ToLower`
does on ASCII text and filters), the filter emphasizes exactly the
left-to-right non-overlapping case-insensitive occurrences of the filter
string and nothing else (it equals the spec-side scan `specHighlight`); an
empty filter string leaves the text entirely unchanged for any lowercasing;
and clearing the filter restores the exact original text. -/
theorem c7_filter_highlight (g : Nat → Nat) (a b : ByteStr)
    (f : ByteStr → ByteStr) (vm : FilterModel) :
    highlightOccurencesCaseInsensitive (List.map g) a b = specHighlight g a b ∧
    highlightOccurencesCaseInsensitive f a [] = some [Chunk.plain a] ∧
    (clearFilter f vm).1.body = vm.body ∧
    (clearFilter f vm).2 = some [Chunk.plain vm.body] := by
  refine ⟨?_, by simp [highlightOccurencesCaseInsensitive], rfl, ?_⟩
  · by_cases hb : b = []
    · subst hb
      simp [highlightOccurencesCaseInsensitive, specHighlight]
    · rw [highlightOccurencesCaseInsensitive, specHighlight, if_neg hb, if_neg hb]
      have := highlightLoop_refines g a b ((a.map g).length + 1) 0 (by omega)
      rw [List.drop_zero] at this
      rw [this, List.length_map]
  · rw [clearFilter]
    cases hfe : vm.filterEnabled with
    | true => simp [updateContent, hfe, highlightOccurencesCaseInsensitive]
    | false => simp [updateContent, hfe]

/-- C10, counterexample: the text "ȺȺȺ" (six bytes) with filter "ⱥ" (three
bytes).  Lowercasing stretches the text to nine bytes, the third match is
found at lowered index 6, and the source then slices `a[6:9]` on the
six-byte original — a slice bound beyond `len(a)`, i.e. a runtime panic
(`none` in this model). -/
theorem c10_counterexample :
    highlightOccurencesCaseInsensitive toLowerStroke
        (0xC8 :: 0xBA :: 0xC8 :: 0xBA :: 0xC8 :: 0xBA :: [])
        (0xE2 :: 0xB1 :: 0xA5 :: []) = none := by
  decide

/-- C10, amended: the function always terminates (it is total in this
model), and whenever the lowercasing acts byte-for-byte (as on ASCII input)
every byte-range slice it takes is within bounds and no panic is possible —
the result is always `some`.  With a byte-length-changing lowercasing the
slice bounds can exceed the original text, as the counterexample shows. -/
theorem c10_slices_in_bounds (g : Nat → Nat) (a b : ByteStr) :
    (highlightOccurencesCaseInsensitive (List.map g) a b).isSome = true := by
  by_cases hb : b = []
  · subst hb
    simp [highlightOccurencesCaseInsensitive]
  · rw [highlightOccurencesCaseInsensitive, if_neg hb]
    have := highlightLoop_refines g a b ((a.map g).length + 1) 0 (by omega)
    rw [List.drop_zero] at this
    rw [this]
    exact specScanLoop_isSome g b hb ((a.map g).length + 1) a
      (by simp only [List.length_map]; omega)
